import Mathlib

set_option maxRecDepth 8000

-- Let elaboration-time evaluation unfold rational arithmetic.
attribute [local semireducible] Rat.mul Rat.inv Rat.add Rat.sub

/- Shallow embedding of `amaranth_boards/test/vga.py`, a 640x480 VGA test
pattern generator.  Registered (synchronous) logic is modelled as step
functions on explicit state records, one application per clock cycle;
combinational outputs are pure functions of the current state and inputs.
Python floats and `round` are modelled by exact rationals together with
round-half-to-even. -/

-- Constants for standard 640x480 VGA timing.
def ACTPIXEL : Nat := 640

def HPORCH_FRONT : Nat := 16

def HPORCH_SYNC : Nat := 96

def HPORCH_BACK : Nat := 48

def HTOTAL : Nat := ACTPIXEL + HPORCH_FRONT + HPORCH_SYNC + HPORCH_BACK

def ACTLINE : Nat := 480

def VPORCH_FRONT : Nat := 10

def VPORCH_SYNC : Nat := 2

def VPORCH_BACK : Nat := 33

def VTOTAL : Nat := ACTLINE + VPORCH_FRONT + VPORCH_SYNC + VPORCH_BACK

/- `RGBOn.elaborate`: each channel of width `w` is driven to all-ones;
under `halfbrite` the most significant bit (bit `w - 1`) is cleared. -/
def channelOn (w : Nat) (halfbrite : Bool) : Nat :=
  let allOnes := 2 ^ w - 1
  if halfbrite then allOnes - 2 ^ (w - 1) else allOnes

/- `LineGen.__init__` configuration attributes. -/
structure LineGenParams where
  block_cycles : Nat
  hporch_front : Nat
  hporch_sync : Nat
  hporch_back : Nat

def LineGenParams.actpixel (p : LineGenParams) : Nat := 8 * p.block_cycles

def LineGenParams.htotal (p : LineGenParams) : Nat :=
  8 * p.block_cycles + p.hporch_front + p.hporch_sync + p.hporch_back

/- The defaults of `LineGen.__init__`. -/
def lineGenDefault : LineGenParams :=
  { block_cycles := ACTPIXEL / 8
    hporch_front := HPORCH_FRONT
    hporch_sync := HPORCH_SYNC
    hporch_back := HPORCH_BACK }

/- The three registers of `LineGen.elaborate`. -/
structure LineGenState where
  pixel : Nat
  block_pixel : Nat
  block : Nat

def lineGenReset : LineGenState := { pixel := 0, block_pixel := 0, block := 0 }

/- The `m.d.sync` updates of `LineGen.elaborate`: the pixel counter wraps at
`htotal - 1`; the block registers reset at the wrap, and otherwise the block
sub-counter wraps at `block_cycles - 1`, incrementing `block` while it is
below 8. -/
def lineGenStep (p : LineGenParams) (s : LineGenState) : LineGenState :=
  let pixel := if s.pixel = p.htotal - 1 then 0 else s.pixel + 1
  if s.pixel = p.htotal - 1 then
    { pixel := pixel, block_pixel := 0, block := 0 }
  else if s.block_pixel = p.block_cycles - 1 then
    { pixel := pixel, block_pixel := 0
      block := if s.block < 8 then s.block + 1 else s.block }
  else
    { pixel := pixel, block_pixel := s.block_pixel + 1, block := s.block }

def lineGenRun (p : LineGenParams) : Nat → LineGenState
  | 0 => lineGenReset
  | n + 1 => lineGenStep p (lineGenRun p n)

/- Combinational output `newline` of `LineGen.elaborate`. -/
def newline (p : LineGenParams) (s : LineGenState) : Bool :=
  decide (s.pixel = p.htotal - 1)

/- Combinational output `hsync` of `LineGen.elaborate`, as a function of the
pixel counter value. -/
def hsyncAt (p : LineGenParams) (pixel : Nat) : Bool :=
  decide (p.actpixel + p.hporch_front ≤ pixel) &&
  decide (pixel < p.actpixel + p.hporch_front + p.hporch_sync)

def hsync (p : LineGenParams) (s : LineGenState) : Bool := hsyncAt p s.pixel

/- Combinational r, g, b outputs of `LineGen.elaborate`: black during the
vertical porch, otherwise a switch on the block register (with a default
giving black for block values beyond 7). -/
def rgbOut (wr wg wb : Nat) (vporch halfbrite : Bool) (block : Nat) :
    Nat × Nat × Nat :=
  if vporch then (0, 0, 0)
  else
    let r_on := channelOn wr halfbrite
    let g_on := channelOn wg halfbrite
    let b_on := channelOn wb halfbrite
    match block with
    | 0 => (r_on, 0, 0)
    | 1 => (0, g_on, 0)
    | 2 => (0, 0, b_on)
    | 3 => (0, 0, 0)
    | 4 => (r_on, g_on, 0)
    | 5 => (r_on, 0, b_on)
    | 6 => (0, g_on, b_on)
    | 7 => (r_on, g_on, b_on)
    | _ => (0, 0, 0)

/- `VScanGen.elaborate` register update: the line counter advances, wrapping
at `VTOTAL - 1`, only on cycles where the `newline` input is asserted. -/
def vscanStep (newline_in : Bool) (line : Nat) : Nat :=
  if newline_in then (if line = VTOTAL - 1 then 0 else line + 1) else line

/- Combinational outputs of `VScanGen.elaborate`. -/
def vporchOf (line : Nat) : Bool := decide (ACTLINE ≤ line)

def vsyncAt (line : Nat) : Bool :=
  decide (ACTLINE + VPORCH_FRONT ≤ line) &&
  decide (line < ACTLINE + VPORCH_FRONT + VPORCH_SYNC)

def halfbriteOf (line : Nat) : Bool := Nat.testBit line 6

def newframeOf (newline_in : Bool) (line : Nat) : Bool :=
  decide (line = VTOTAL - 1) && newline_in

/- `VGA.elaborate` wires `vgen.newline` to `linegen.newline` combinationally,
so both registered components step within the same clock cycle, the vertical
update observing the newline value derived from the pre-update pixel
counter. -/
structure VGAState where
  lg : LineGenState
  line : Nat

def vgaReset : VGAState := { lg := lineGenReset, line := 0 }

def vgaStep (p : LineGenParams) (s : VGAState) : VGAState :=
  { lg := lineGenStep p s.lg, line := vscanStep (newline p s.lg) s.line }

def vgaRun (p : LineGenParams) : Nat → VGAState
  | 0 => vgaReset
  | n + 1 => vgaStep p (vgaRun p n)

def newframePulse (p : LineGenParams) (s : VGAState) : Bool :=
  newframeOf (newline p s.lg) s.line

/- Python `round` to an integer: round half to even, on exact rationals.
With `f` the floor of `q`, the fractional part of `q` is
`r / q.den` where `r = q.num - f * q.den`, so comparing it against `1 / 2`
is comparing `2 * r` against `q.den`. -/
def pyRound (q : ℚ) : ℤ :=
  let f : ℤ := q.floor
  let r : ℤ := q.num - f * q.den
  if 2 * r < (q.den : ℤ) then f
  else if (q.den : ℤ) < 2 * r then f + 1
  else if f % 2 = 0 then f else f + 1

/- `VGA.__init__`: `round(clk_freq/25.2e6, 4)`. -/
def ratioOf (clk_freq : ℚ) : ℚ :=
  (pyRound (clk_freq / 25200000 * 10000) : ℚ) / 10000

def vgaMinFreqMsg : String :=
  "VGA test pattern has to be run with a min. freq. of 25.2MHz"

/- `VGA.__init__`: stores the rounded ratio, raising `ValueError` when it is
below 1. -/
def vgaInit (clk_freq : ℚ) : Except String ℚ :=
  let ratio := ratioOf clk_freq
  if ratio < 1 then Except.error vgaMinFreqMsg else Except.ok ratio

/- The scaled horizontal parameters computed in `VGA.elaborate` for
`ratio >= 1.01`. -/
def hsyncScaled (ratio : ℚ) : ℤ := pyRound (ratio * (HPORCH_SYNC : ℚ))

def hbackScaled (ratio : ℚ) : ℤ := pyRound (ratio * (HPORCH_BACK : ℚ))

def blockCyclesScaled (ratio : ℚ) : ℤ := pyRound (ratio * (ACTPIXEL : ℚ) / 8)

def htotalScaled (ratio : ℚ) : ℤ := pyRound (ratio * (HTOTAL : ℚ))

def hfrontScaled (ratio : ℚ) : ℤ :=
  htotalScaled ratio -
    (8 * blockCyclesScaled ratio + hsyncScaled ratio + hbackScaled ratio)

/- `VGA.elaborate` parameter selection: the literal defaults when
`ratio < 1.01`, the proportionally scaled values otherwise. -/
def horizontalParams (ratio : ℚ) : LineGenParams :=
  if ratio < 101 / 100 then lineGenDefault
  else
    { block_cycles := (blockCyclesScaled ratio).toNat
      hporch_front := (hfrontScaled ratio).toNat
      hporch_sync := (hsyncScaled ratio).toNat
      hporch_back := (hbackScaled ratio).toNat }

/- Helper lemmas about the embedded step functions. -/

theorem VTOTAL_eq : VTOTAL = 525 := rfl

theorem lineGenStep_pixel (p : LineGenParams) (s : LineGenState) :
    (lineGenStep p s).pixel =
      if s.pixel = p.htotal - 1 then 0 else s.pixel + 1 := by
  simp only [lineGenStep]
  split
  · next h => simp [h]
  · next h => split <;> simp [h]

theorem lineGenStep_pixel_mod (p : LineGenParams) (s : LineGenState)
    (hp : 0 < p.htotal) (hs : s.pixel < p.htotal) :
    (lineGenStep p s).pixel = (s.pixel + 1) % p.htotal := by
  rw [lineGenStep_pixel]
  split
  · next h =>
    rw [h, Nat.sub_add_cancel hp, Nat.mod_self]
  · next h =>
    rw [Nat.mod_eq_of_lt]
    omega

theorem lineGenRun_pixel_lt (p : LineGenParams) (hp : 0 < p.htotal) :
    ∀ n, (lineGenRun p n).pixel < p.htotal
  | 0 => hp
  | n + 1 => by
    have ih := lineGenRun_pixel_lt p hp n
    show (lineGenStep p (lineGenRun p n)).pixel < p.htotal
    rw [lineGenStep_pixel]
    split
    · exact hp
    · next h => omega

theorem succ_mod_eq (n m : Nat) : (n + 1) % m = (n % m + 1) % m := by
  conv_lhs => rw [← Nat.div_add_mod n m]
  rw [Nat.add_assoc, Nat.mul_add_mod]

theorem lineGenRun_pixel (p : LineGenParams) (hp : 0 < p.htotal) :
    ∀ n, (lineGenRun p n).pixel = n % p.htotal
  | 0 => by simp [lineGenRun, lineGenReset]
  | n + 1 => by
    show (lineGenStep p (lineGenRun p n)).pixel = (n + 1) % p.htotal
    rw [lineGenStep_pixel_mod p _ hp (lineGenRun_pixel_lt p hp n),
      lineGenRun_pixel p hp n]
    exact (succ_mod_eq n p.htotal).symm

theorem vgaRun_lg (p : LineGenParams) :
    ∀ n, (vgaRun p n).lg = lineGenRun p n
  | 0 => rfl
  | n + 1 => by
    show (vgaStep p (vgaRun p n)).lg = lineGenStep p (lineGenRun p n)
    rw [vgaStep, vgaRun_lg p n]

theorem dvd_succ_iff_mod (n m : Nat) (hm : 0 < m) :
    m ∣ (n + 1) ↔ n % m = m - 1 := by
  rw [Nat.dvd_iff_mod_eq_zero, succ_mod_eq]
  have hlt : n % m < m := Nat.mod_lt n hm
  rcases Nat.lt_or_ge (n % m + 1) m with h | h
  · rw [Nat.mod_eq_of_lt h]
    omega
  · have he : n % m + 1 = m := by omega
    rw [he, Nat.mod_self]
    omega

theorem vscanStep_mod (b : Bool) (line : Nat) (hl : line < VTOTAL) :
    vscanStep b line = if b then (line + 1) % VTOTAL else line := by
  have h525 : VTOTAL = 525 := rfl
  cases b
  · simp [vscanStep]
  · simp only [vscanStep, if_pos]
    rw [h525] at hl ⊢
    split <;> omega

theorem vgaRun_line (p : LineGenParams) (hp : 0 < p.htotal) :
    ∀ n, (vgaRun p n).line = (n / p.htotal) % VTOTAL
  | 0 => by simp [vgaRun, vgaReset]
  | n + 1 => by
    show (vgaStep p (vgaRun p n)).line = ((n + 1) / p.htotal) % VTOTAL
    rw [vgaStep]
    show vscanStep (newline p (vgaRun p n).lg) (vgaRun p n).line = _
    rw [vgaRun_lg, vgaRun_line p hp n,
      vscanStep_mod _ _ (Nat.mod_lt _ (by decide)), Nat.succ_div]
    by_cases hd : p.htotal ∣ (n + 1)
    · have hnl : newline p (lineGenRun p n) = true := by
        simp [newline, lineGenRun_pixel p hp n,
          (dvd_succ_iff_mod n p.htotal hp).mp hd]
      rw [hnl, if_pos rfl, if_pos hd]
      exact (succ_mod_eq _ _).symm
    · have hnl : newline p (lineGenRun p n) = false := by
        simp only [newline, lineGenRun_pixel p hp n, decide_eq_false_iff_not]
        intro hc
        exact hd ((dvd_succ_iff_mod n p.htotal hp).mpr hc)
      rw [hnl, if_neg hd]
      simp

/-- C1: at every state of the horizontal scanner reachable from reset, the
pixel counter advances by exactly 1 modulo the horizontal total on the next
cycle (wrapping from `htotal - 1` to 0), and the `newline` output is true on
a cycle if and only if the pre-increment counter value equals
`htotal - 1`. -/
theorem C1_pixel_counter (p : LineGenParams) (n : Nat) (hp : 0 < p.htotal) :
    (lineGenStep p (lineGenRun p n)).pixel =
      ((lineGenRun p n).pixel + 1) % p.htotal ∧
    (newline p (lineGenRun p n) = true ↔
      (lineGenRun p n).pixel = p.htotal - 1) := by
  refine ⟨lineGenStep_pixel_mod p _ hp (lineGenRun_pixel_lt p hp n), ?_⟩
  simp [newline]

/-- C1 witness: the default configuration after 5 cycles. -/
theorem C1_pixel_counter_witness :
    (lineGenStep lineGenDefault (lineGenRun lineGenDefault 5)).pixel =
      ((lineGenRun lineGenDefault 5).pixel + 1) % lineGenDefault.htotal ∧
    (newline lineGenDefault (lineGenRun lineGenDefault 5) = true ↔
      (lineGenRun lineGenDefault 5).pixel = lineGenDefault.htotal - 1) :=
  C1_pixel_counter lineGenDefault 5 (by decide)

/-- C2: in the composed generator, on a cycle where the combinational
`newline` input is false the line counter is unchanged, and on a cycle
where it is true the line counter advances by exactly 1 modulo `VTOTAL`
within that same cycle. -/
theorem C2_line_counter (p : LineGenParams) (s : VGAState)
    (hl : s.line < VTOTAL) :
    (newline p s.lg = false → (vgaStep p s).line = s.line) ∧
    (newline p s.lg = true → (vgaStep p s).line = (s.line + 1) % VTOTAL) := by
  constructor <;> intro hn <;>
    rw [vgaStep] <;>
    simp only [vscanStep_mod _ _ hl, hn] <;> simp

/-- C2 witness: a state on the last pixel of line 3. -/
theorem C2_line_counter_witness :
    (newline lineGenDefault (⟨⟨799, 0, 8⟩, 3⟩ : VGAState).lg = false →
      (vgaStep lineGenDefault ⟨⟨799, 0, 8⟩, 3⟩).line = 3) ∧
    (newline lineGenDefault (⟨⟨799, 0, 8⟩, 3⟩ : VGAState).lg = true →
      (vgaStep lineGenDefault ⟨⟨799, 0, 8⟩, 3⟩).line = (3 + 1) % VTOTAL) :=
  C2_line_counter lineGenDefault ⟨⟨799, 0, 8⟩, 3⟩ (by decide)

theorem filter_window_card (lo w total : Nat) (h : lo + w ≤ total) :
    ((Finset.range total).filter
      (fun x => (decide (lo ≤ x) && decide (x < lo + w)) = true)).card = w := by
  have he : (Finset.range total).filter
      (fun x => (decide (lo ≤ x) && decide (x < lo + w)) = true) =
      Finset.Ico lo (lo + w) := by
    ext x
    simp only [Finset.mem_filter, Finset.mem_range, Finset.mem_Ico,
      Bool.and_eq_true, decide_eq_true_eq]
    omega
  rw [he, Nat.card_Ico]
  omega

/-- C3: `hsync` is true exactly when the pixel counter is in the half-open
window `[actpixel + hporch_front, actpixel + hporch_front + hporch_sync)`,
and `vsync` is true exactly when the line counter is in
`[ACTLINE + VPORCH_FRONT, ACTLINE + VPORCH_FRONT + VPORCH_SYNC)`; each sync
signal is therefore true for exactly `syncWidth` counter values per period,
starting exactly `active + frontPorch` counts after counter reset. -/
theorem C3_sync_windows (p : LineGenParams) (s : LineGenState) (line : Nat) :
    (hsync p s = true ↔
      (p.actpixel + p.hporch_front ≤ s.pixel ∧
       s.pixel < p.actpixel + p.hporch_front + p.hporch_sync)) ∧
    (vsyncAt line = true ↔
      (ACTLINE + VPORCH_FRONT ≤ line ∧
       line < ACTLINE + VPORCH_FRONT + VPORCH_SYNC)) ∧
    ((Finset.range p.htotal).filter (fun x => hsyncAt p x = true)).card =
      p.hporch_sync ∧
    ((Finset.range VTOTAL).filter (fun x => vsyncAt x = true)).card =
      VPORCH_SYNC := by
  refine ⟨?_, ?_, ?_, ?_⟩
  · simp [hsync, hsyncAt]
  · simp [vsyncAt]
  · simp only [hsyncAt]
    apply filter_window_card
    simp only [LineGenParams.actpixel, LineGenParams.htotal]
    omega
  · simp only [vsyncAt]
    exact filter_window_card _ _ _ (by decide)

/-- C6: the per-pixel RGB output is black whenever vertical blanking is
active, regardless of block and half-brightness; otherwise block 0 is pure
R on, 1 pure G, 2 pure B, 3 black, 4 R+G, 5 R+B, 6 G+B, 7 R+G+B, and any
block index at least 8 gives black even when not vertically blanked. -/
theorem C6_block_colors (wr wg wb : Nat) (hb : Bool) (block : Nat)
    (h8 : 8 ≤ block) :
    (∀ b2 : Nat, rgbOut wr wg wb true hb b2 = (0, 0, 0)) ∧
    rgbOut wr wg wb false hb 0 = (channelOn wr hb, 0, 0) ∧
    rgbOut wr wg wb false hb 1 = (0, channelOn wg hb, 0) ∧
    rgbOut wr wg wb false hb 2 = (0, 0, channelOn wb hb) ∧
    rgbOut wr wg wb false hb 3 = (0, 0, 0) ∧
    rgbOut wr wg wb false hb 4 = (channelOn wr hb, channelOn wg hb, 0) ∧
    rgbOut wr wg wb false hb 5 = (channelOn wr hb, 0, channelOn wb hb) ∧
    rgbOut wr wg wb false hb 6 = (0, channelOn wg hb, channelOn wb hb) ∧
    rgbOut wr wg wb false hb 7 =
      (channelOn wr hb, channelOn wg hb, channelOn wb hb) ∧
    rgbOut wr wg wb false hb block = (0, 0, 0) := by
  obtain ⟨k, rfl⟩ := Nat.exists_eq_add_of_le' h8
  exact ⟨fun b2 => rfl, rfl, rfl, rfl, rfl, rfl, rfl, rfl, rfl, rfl⟩

/-- C6 witness: 8-bit channels, block index 9, no vertical blanking. -/
theorem C6_block_colors_witness :
    rgbOut 8 8 8 false false 9 = (0, 0, 0) :=
  (C6_block_colors 8 8 8 false 9 (by decide)).2.2.2.2.2.2.2.2.2

/-- C8: for a channel of width `w ≥ 1` the on-value is all ones
(2 ^ w - 1) without half-brightness, and with half-brightness the most
significant bit is cleared, giving 2 ^ (w - 1) - 1. -/
theorem C8_half_brightness (w : Nat) (hw : 1 ≤ w) :
    channelOn w false = 2 ^ w - 1 ∧ channelOn w true = 2 ^ (w - 1) - 1 := by
  refine ⟨rfl, ?_⟩
  show 2 ^ w - 1 - 2 ^ (w - 1) = 2 ^ (w - 1) - 1
  obtain ⟨k, rfl⟩ := Nat.exists_eq_add_of_le' hw
  have h2 : 2 ^ (k + 1) = 2 ^ k * 2 := pow_succ 2 k
  have h1 : 1 ≤ 2 ^ k := Nat.one_le_two_pow
  simp only [Nat.add_sub_cancel]
  omega

/-- C8 witness: an 8-bit channel gives 255 = 0xFF normally and
127 = 0x7F under half-brightness. -/
theorem C8_half_brightness_witness :
    channelOn 8 false = 2 ^ 8 - 1 ∧ channelOn 8 true = 2 ^ (8 - 1) - 1 :=
  C8_half_brightness 8 (by decide)

theorem lineGenRun_block_inv (p : LineGenParams) (hbc : 0 < p.block_cycles) :
    ∀ n, (lineGenRun p n).pixel < p.htotal ∧
      (lineGenRun p n).block_pixel = (lineGenRun p n).pixel % p.block_cycles ∧
      (lineGenRun p n).block = min ((lineGenRun p n).pixel / p.block_cycles) 8
  | 0 => by
    refine ⟨?_, ?_, ?_⟩
    · show 0 < p.htotal
      simp only [LineGenParams.htotal]
      omega
    · show (0 : Nat) = 0 % p.block_cycles
      exact (Nat.zero_mod _).symm
    · show (0 : Nat) = min (0 / p.block_cycles) 8
      simp
  | n + 1 => by
    obtain ⟨h1, h2, h3⟩ := lineGenRun_block_inv p hbc n
    have hht : 0 < p.htotal := by
      simp only [LineGenParams.htotal]
      omega
    show (lineGenStep p (lineGenRun p n)).pixel < p.htotal ∧
      (lineGenStep p (lineGenRun p n)).block_pixel =
        (lineGenStep p (lineGenRun p n)).pixel % p.block_cycles ∧
      (lineGenStep p (lineGenRun p n)).block =
        min ((lineGenStep p (lineGenRun p n)).pixel / p.block_cycles) 8
    set s := lineGenRun p n with hsdef
    have hd := Nat.div_add_mod s.pixel p.block_cycles
    by_cases hc1 : s.pixel = p.htotal - 1
    · have hstep : lineGenStep p s =
          { pixel := 0, block_pixel := 0, block := 0 } := by
        simp [lineGenStep, hc1]
      rw [hstep]
      exact ⟨hht, by simp, by simp⟩
    · by_cases hc2 : s.block_pixel = p.block_cycles - 1
      · have hstep : lineGenStep p s =
            { pixel := s.pixel + 1, block_pixel := 0
              block := if s.block < 8 then s.block + 1 else s.block } := by
          simp [lineGenStep, hc1, hc2]
        rw [hstep]
        have hr : s.pixel % p.block_cycles = p.block_cycles - 1 := by
          rw [← h2]
          exact hc2
        have hpe : s.pixel + 1 =
            p.block_cycles * (s.pixel / p.block_cycles + 1) := by
          rw [Nat.mul_add, Nat.mul_one]
          omega
        refine ⟨?_, ?_, ?_⟩
        · show s.pixel + 1 < p.htotal
          omega
        · show (0 : Nat) = (s.pixel + 1) % p.block_cycles
          rw [hpe]
          exact (Nat.mul_mod_right _ _).symm
        · show (if s.block < 8 then s.block + 1 else s.block) =
            min ((s.pixel + 1) / p.block_cycles) 8
          rw [hpe, Nat.mul_div_cancel_left _ hbc]
          split <;> omega
      · have hstep : lineGenStep p s =
            { pixel := s.pixel + 1, block_pixel := s.block_pixel + 1
              block := s.block } := by
          simp [lineGenStep, hc1, hc2]
        rw [hstep]
        have hr : s.pixel % p.block_cycles < p.block_cycles :=
          Nat.mod_lt _ hbc
        have hpe : s.pixel + 1 =
            p.block_cycles * (s.pixel / p.block_cycles) +
              (s.pixel % p.block_cycles + 1) := by
          omega
        refine ⟨?_, ?_, ?_⟩
        · show s.pixel + 1 < p.htotal
          omega
        · show s.block_pixel + 1 = (s.pixel + 1) % p.block_cycles
          rw [hpe, Nat.mul_add_mod,
            Nat.mod_eq_of_lt
              (show s.pixel % p.block_cycles + 1 < p.block_cycles by omega),
            h2]
        · show s.block = min ((s.pixel + 1) / p.block_cycles) 8
          rw [hpe, Nat.mul_add_div hbc,
            Nat.div_eq_of_lt
              (show s.pixel % p.block_cycles + 1 < p.block_cycles by omega),
            Nat.add_zero]
          exact h3

/-- C10: from reset, in a configuration with positive block width and
positive porch widths, the registered block index always equals
`min (pixel / block_cycles) 8` and the registered block sub-counter always
equals `pixel % block_cycles`: the stored block state never drifts from the
value recomputed from the pixel counter. -/
theorem C10_block_invariant (p : LineGenParams) (n : Nat)
    (hbc : 0 < p.block_cycles) (_hf : 0 < p.hporch_front)
    (_hsy : 0 < p.hporch_sync) (_hbk : 0 < p.hporch_back) :
    (lineGenRun p n).block =
      min ((lineGenRun p n).pixel / p.block_cycles) 8 ∧
    (lineGenRun p n).block_pixel =
      (lineGenRun p n).pixel % p.block_cycles := by
  obtain ⟨h1, h2, h3⟩ := lineGenRun_block_inv p hbc n
  exact ⟨h3, h2⟩

/-- C10 witness: the default configuration after 100 cycles, where the
block registers have advanced into block 1. -/
theorem C10_block_invariant_witness :
    (lineGenRun lineGenDefault 100).block =
      min ((lineGenRun lineGenDefault 100).pixel /
        lineGenDefault.block_cycles) 8 ∧
    (lineGenRun lineGenDefault 100).block_pixel =
      (lineGenRun lineGenDefault 100).pixel % lineGenDefault.block_cycles :=
  C10_block_invariant lineGenDefault 100 (by decide) (by decide) (by decide)
    (by decide)

/-- C7: `newframe` is true exactly on cycles where the line counter equals
`VTOTAL - 1` and the newline pulse is simultaneously true; consequently,
driving the composed generator for exactly `htotal * VTOTAL` cycles from
reset produces exactly one newframe pulse. -/
theorem C7_newframe (p : LineGenParams) (b : Bool) (line : Nat)
    (hp : 0 < p.htotal) :
    (newframeOf b line = true ↔ (line = VTOTAL - 1 ∧ b = true)) ∧
    ((Finset.range (p.htotal * VTOTAL)).filter
      (fun n => newframePulse p (vgaRun p n) = true)).card = 1 := by
  constructor
  · simp [newframeOf]
  · have h525 : VTOTAL = 525 := rfl
    have hNpos : 0 < p.htotal * VTOTAL := Nat.mul_pos hp (by decide)
    have hiff : ∀ n ∈ Finset.range (p.htotal * VTOTAL),
        (newframePulse p (vgaRun p n) = true ↔
          n = p.htotal * VTOTAL - 1) := by
      intro n hn
      rw [Finset.mem_range] at hn
      have hq : n / p.htotal < VTOTAL := by
        rw [Nat.div_lt_iff_lt_mul hp, Nat.mul_comm]
        exact hn
      have hdm := Nat.div_add_mod n p.htotal
      have hrlt : n % p.htotal < p.htotal := Nat.mod_lt _ hp
      simp only [newframePulse, newframeOf, newline, vgaRun_lg,
        vgaRun_line p hp, lineGenRun_pixel p hp, Bool.and_eq_true,
        decide_eq_true_eq, Nat.mod_eq_of_lt hq]
      constructor
      · rintro ⟨hq1, hr1⟩
        rw [hq1, h525] at hdm
        rw [h525]
        omega
      · intro he
        subst he
        have hne : p.htotal * VTOTAL - 1 =
            p.htotal * (VTOTAL - 1) + (p.htotal - 1) := by
          rw [h525]
          omega
        rw [hne, Nat.mul_add_div hp, Nat.mul_add_mod,
          Nat.div_eq_of_lt (show p.htotal - 1 < p.htotal by omega),
          Nat.mod_eq_of_lt (show p.htotal - 1 < p.htotal by omega)]
        exact ⟨by omega, rfl⟩
    rw [Finset.filter_congr hiff, Finset.filter_eq',
      if_pos (Finset.mem_range.mpr (by omega)), Finset.card_singleton]

/-- C7 witness: the default configuration; line 524 with a simultaneous
newline is the unique newframe pulse of the 800 * 525 cycle frame. -/
theorem C7_newframe_witness :
    (newframeOf true 524 = true ↔ (524 = VTOTAL - 1 ∧ true = true)) ∧
    ((Finset.range (lineGenDefault.htotal * VTOTAL)).filter
      (fun n => newframePulse lineGenDefault (vgaRun lineGenDefault n) =
        true)).card = 1 :=
  C7_newframe lineGenDefault true 524 (by decide)

theorem ratFloor_eq_intFloor (q : ℚ) : q.floor = ⌊q⌋ :=
  (Rat.floor_def' q).trans Rat.floor_def.symm

theorem pyRound_bounds (q : ℚ) :
    q - 1 / 2 ≤ (pyRound q : ℚ) ∧ (pyRound q : ℚ) ≤ q + 1 / 2 := by
  have hden : (0 : ℚ) < (q.den : ℚ) := by
    exact_mod_cast q.den_pos
  have hnum : (q.num : ℚ) = q * (q.den : ℚ) :=
    (div_eq_iff (ne_of_gt hden)).mp (Rat.num_div_den q)
  have h1 : ((⌊q⌋ : ℤ) : ℚ) ≤ q := Int.floor_le q
  have h2 : q < ((⌊q⌋ : ℤ) : ℚ) + 1 := Int.lt_floor_add_one q
  have hA2 : 2 * ((q.num - q.floor * q.den : ℤ) : ℚ) =
      (2 * (q - ((⌊q⌋ : ℤ) : ℚ))) * (q.den : ℚ) := by
    rw [ratFloor_eq_intFloor]
    push_cast
    rw [hnum]
    ring
  rcases lt_trichotomy (2 * (q.num - q.floor * q.den)) ((q.den : ℤ)) with
    hc | hc | hc
  · have hp : pyRound q = ⌊q⌋ := by
      simp only [pyRound]
      rw [if_pos hc, ratFloor_eq_intFloor]
    have hcq : 2 * ((q.num - q.floor * q.den : ℤ) : ℚ) < (q.den : ℚ) := by
      exact_mod_cast hc
    rw [hA2] at hcq
    have h4 : 2 * (q - ((⌊q⌋ : ℤ) : ℚ)) < 1 :=
      (mul_lt_iff_lt_one_left hden).mp hcq
    rw [hp]
    constructor <;> linarith
  · have hcq : 2 * ((q.num - q.floor * q.den : ℤ) : ℚ) = (q.den : ℚ) := by
      exact_mod_cast hc
    rw [hA2] at hcq
    have h4 : 2 * (q - ((⌊q⌋ : ℤ) : ℚ)) = 1 := by
      have hone : (2 * (q - ((⌊q⌋ : ℤ) : ℚ))) * (q.den : ℚ) =
          1 * (q.den : ℚ) := by
        rw [one_mul]
        exact hcq
      exact mul_right_cancel₀ (ne_of_gt hden) hone
    have hp : pyRound q = ⌊q⌋ ∨ pyRound q = ⌊q⌋ + 1 := by
      simp only [pyRound]
      rw [if_neg (by omega), if_neg (by omega)]
      split
      · exact Or.inl (ratFloor_eq_intFloor q)
      · exact Or.inr (by rw [ratFloor_eq_intFloor])
    rcases hp with hp | hp <;> rw [hp] <;> push_cast <;>
      constructor <;> linarith
  · have hp : pyRound q = ⌊q⌋ + 1 := by
      simp only [pyRound]
      rw [if_neg (by omega), if_pos hc, ratFloor_eq_intFloor]
    have hcq : (q.den : ℚ) < 2 * ((q.num - q.floor * q.den : ℤ) : ℚ) := by
      exact_mod_cast hc
    rw [hA2] at hcq
    have h4 : 1 < 2 * (q - ((⌊q⌋ : ℤ) : ℚ)) :=
      (lt_mul_iff_one_lt_left hden).mp hcq
    rw [hp]
    push_cast
    constructor <;> linarith

/-- C4 counterexample: at construction clock frequency 25,326,000 Hz the
rounded ratio is 1.005, which is at least 1, yet the selected front porch
is the literal default 16 while the proportional formula gives
round(1.005 * 800) - (640 + 96 + 48) = 20: below ratio 1.01 the
implementation keeps the default constants instead of scaling. -/
theorem C4_counterexample :
    1 ≤ ratioOf 25326000 ∧
    (horizontalParams (ratioOf 25326000)).hporch_front ≠
      (hfrontScaled (ratioOf 25326000)).toNat := by
  constructor
  · decide
  · decide

/-- C4 amended: for rounded ratio at least 1.01 the horizontal parameters
are derived proportionally (sync width round(ratio*96), back porch
round(ratio*48), active region 8 * round(ratio*640/8), front porch
round(ratio*800) minus the sum of the other three); for ratio between 1
and 1.01 the literal default constants are used unscaled. -/
theorem C4_scaled_params (ratio : ℚ) :
    (101 / 100 ≤ ratio →
      (horizontalParams ratio).hporch_sync = (hsyncScaled ratio).toNat ∧
      (horizontalParams ratio).hporch_back = (hbackScaled ratio).toNat ∧
      (horizontalParams ratio).actpixel =
        8 * (blockCyclesScaled ratio).toNat ∧
      (horizontalParams ratio).hporch_front = (hfrontScaled ratio).toNat) ∧
    (1 ≤ ratio → ratio < 101 / 100 →
      horizontalParams ratio = lineGenDefault) := by
  constructor
  · intro h
    rw [horizontalParams, if_neg (not_lt.mpr h)]
    exact ⟨rfl, rfl, rfl, rfl⟩
  · intro h1 h2
    rw [horizontalParams, if_pos h2]

/-- C4 witness: ratio 2 (a 50.4 MHz clock) uses the scaled parameters. -/
theorem C4_scaled_params_witness :
    (horizontalParams 2).hporch_sync = (hsyncScaled 2).toNat ∧
    (horizontalParams 2).hporch_back = (hbackScaled 2).toNat ∧
    (horizontalParams 2).actpixel = 8 * (blockCyclesScaled 2).toNat ∧
    (horizontalParams 2).hporch_front = (hfrontScaled 2).toNat :=
  (C4_scaled_params 2).1 (by decide)

/-- C5: construction fails with the minimum-frequency ValueError exactly
when the rounded ratio is below 1; 12.6 MHz fails, 25.2 MHz succeeds with
ratio 1 and reproduces the literal default timing constants for both
dimensions. -/
theorem C5_construction (clk_freq : ℚ) :
    (vgaInit clk_freq = Except.error vgaMinFreqMsg ↔ ratioOf clk_freq < 1) ∧
    vgaInit 12600000 = Except.error vgaMinFreqMsg ∧
    vgaInit 25200000 = Except.ok 1 ∧
    (horizontalParams (ratioOf 25200000)).actpixel = 640 ∧
    (horizontalParams (ratioOf 25200000)).hporch_front = 16 ∧
    (horizontalParams (ratioOf 25200000)).hporch_sync = 96 ∧
    (horizontalParams (ratioOf 25200000)).hporch_back = 48 ∧
    ACTLINE = 480 ∧ VPORCH_FRONT = 10 ∧ VPORCH_SYNC = 2 ∧
    VPORCH_BACK = 33 := by
  refine ⟨?_, rfl, rfl, by decide, by decide, by decide, by decide,
    rfl, rfl, rfl, rfl⟩
  rw [vgaInit]
  split
  · next h => simp [h]
  · next h => simp [h]

/-- C9: for every configuration with rounded ratio at least 1, the four
horizontal components as constructed sum to the constructed horizontal
total with a non-negative integer front porch: for ratio at least 1.01 the
total equals round(ratio * 800) and the scaled front porch is
non-negative, below 1.01 the total is the literal 800; the four vertical
constants sum to the vertical total. -/
theorem C9_sum_invariant (ratio : ℚ) (_h1 : 1 ≤ ratio) :
    (horizontalParams ratio).actpixel +
      (horizontalParams ratio).hporch_front +
      (horizontalParams ratio).hporch_sync +
      (horizontalParams ratio).hporch_back =
      (horizontalParams ratio).htotal ∧
    ACTLINE + VPORCH_FRONT + VPORCH_SYNC + VPORCH_BACK = VTOTAL ∧
    (ratio < 101 / 100 → (horizontalParams ratio).htotal = HTOTAL) ∧
    (101 / 100 ≤ ratio →
      0 ≤ hfrontScaled ratio ∧
      (((horizontalParams ratio).htotal : ℕ) : ℤ) = htotalScaled ratio) := by
  refine ⟨rfl, rfl, ?_, ?_⟩
  · intro h
    rw [horizontalParams, if_pos h]
    decide
  · intro h
    have e96 : (HPORCH_SYNC : ℚ) = 96 := by norm_num [HPORCH_SYNC]
    have e48 : (HPORCH_BACK : ℚ) = 48 := by norm_num [HPORCH_BACK]
    have e640 : (ACTPIXEL : ℚ) = 640 := by norm_num [ACTPIXEL]
    have e800 : (HTOTAL : ℚ) = 800 := by
      norm_num [HTOTAL, ACTPIXEL, HPORCH_FRONT, HPORCH_SYNC, HPORCH_BACK]
    have b96 := pyRound_bounds (ratio * (96 : ℚ))
    have b48 := pyRound_bounds (ratio * (48 : ℚ))
    have b80 := pyRound_bounds (ratio * (640 : ℚ) / 8)
    have b800 := pyRound_bounds (ratio * (800 : ℚ))
    have hsync0 : 0 ≤ hsyncScaled ratio := by
      have hq : (0 : ℚ) ≤ ((hsyncScaled ratio : ℤ) : ℚ) := by
        simp only [hsyncScaled]
        rw [e96]
        linarith [b96.1]
      exact_mod_cast hq
    have hback0 : 0 ≤ hbackScaled ratio := by
      have hq : (0 : ℚ) ≤ ((hbackScaled ratio : ℤ) : ℚ) := by
        simp only [hbackScaled]
        rw [e48]
        linarith [b48.1]
      exact_mod_cast hq
    have hbc0 : 0 ≤ blockCyclesScaled ratio := by
      have hq : (0 : ℚ) ≤ ((blockCyclesScaled ratio : ℤ) : ℚ) := by
        simp only [blockCyclesScaled]
        rw [e640]
        linarith [b80.1]
      exact_mod_cast hq
    have hfront0 : 0 ≤ hfrontScaled ratio := by
      have hq : (0 : ℚ) ≤ ((hfrontScaled ratio : ℤ) : ℚ) := by
        simp only [hfrontScaled, htotalScaled, hsyncScaled, hbackScaled,
          blockCyclesScaled]
        rw [e96, e48, e640, e800]
        push_cast
        linarith [b96.1, b96.2, b48.1, b48.2, b80.1, b80.2, b800.1, b800.2]
      exact_mod_cast hq
    refine ⟨hfront0, ?_⟩
    rw [horizontalParams, if_neg (not_lt.mpr h)]
    show ((8 * (blockCyclesScaled ratio).toNat +
      (hfrontScaled ratio).toNat + (hsyncScaled ratio).toNat +
      (hbackScaled ratio).toNat : ℕ) : ℤ) = htotalScaled ratio
    push_cast [Int.toNat_of_nonneg hbc0, Int.toNat_of_nonneg hfront0,
      Int.toNat_of_nonneg hsync0, Int.toNat_of_nonneg hback0]
    simp only [hfrontScaled]
    ring

/-- C9 witness: ratio 1 (25.2 MHz, literal total 800) and ratio 2
(50.4 MHz, scaled total with non-negative front porch). -/
theorem C9_sum_invariant_witness :
    (horizontalParams 1).htotal = HTOTAL ∧
    (0 ≤ hfrontScaled 2 ∧
      (((horizontalParams 2).htotal : ℕ) : ℤ) = htotalScaled 2) :=
  ⟨(C9_sum_invariant 1 (by decide)).2.2.1 (by decide),
   (C9_sum_invariant 2 (by decide)).2.2.2 (by decide)⟩

